import Mathlib

/-!
Shallow embedding of `src/archive.rs` (crate `srstar`): a tar (USTAR/GNU
layout) archive writer.  Bytes are modelled as `Nat` (with `< 256` bounds
stated where the arithmetic depends on them); the 512-byte header is a
structure mirroring the `repr(C)` `GnuHeader` struct, whose serialized form
(`GnuHeader.bytes`) is the concatenation of its fields in declaration order,
exactly the layout the source's `unsafe` cast between `[u8; 512]` and
`GnuHeader` relies on.  Fallible operations return `Except` mirroring
`io::Result`.
-/

namespace Srstar

/-- Octal digits of `n`, least-significant digit first, as raw values `< 8`,
computed with explicit fuel (`octGo n n` is the digit list of `n`). -/
def octGo : Nat → Nat → List Nat
  | 0, _ => []
  | fuel + 1, n => if n = 0 then [] else n % 8 :: octGo fuel (n / 8)

/-- ASCII octal representation of `n`, most-significant digit first, as
produced by the Rust formatting `format!` with the `:o` specifier used by
`octal_into`: the single byte `'0'` for zero, otherwise the digits of `n`
with no leading zeros. -/
def octalRep (n : Nat) : List Nat :=
  if n = 0 then [48] else ((octGo n n).map (fun d => d + 48)).reverse

/-- First `n` elements of the unbounded byte iterator `xs.chain(repeat pad)`
(the `value` iterator in the source's `octal_into`). -/
def takeStream (n : Nat) (xs : List Nat) (pad : Nat) : List Nat :=
  xs.take n ++ List.replicate (n - xs.length) pad

/-- Model of `octal_into(dst, val)`: the source zips the destination slots in
reverse order, skipping the last byte, against the octal ASCII digits of
`val` least-significant first chained with infinitely repeated `'0'` bytes.
Every slot except the last is therefore overwritten; the last byte of the
field is left untouched. -/
def octal_into : List Nat → Nat → List Nat
  | [], _ => []
  | a :: l, v =>
    (takeStream l.length (octalRep v).reverse 48).reverse ++ [(a :: l).getLastD 0]

/-- The zip-write loop inside `copy_into`: each source byte overwrites the
corresponding slot byte; slot bytes beyond the source are left untouched;
source bytes beyond the slot are dropped. -/
def copy_from : List Nat → List Nat → List Nat
  | [], _ => []
  | slot, [] => slot
  | _ :: slot, v :: src => v :: copy_from slot src

/-- Model of `copy_into(slot, bytes)`: writes `bytes` chained with a single
trailing NUL into `slot` and unconditionally returns `Ok`. -/
def copy_into (slot bytes : List Nat) : Except String (List Nat) :=
  Except.ok (copy_from slot (bytes ++ [0]))

/-- Modelled from the spec: decoding an octal ASCII field — interpret the
bytes as octal digits, stopping at the NUL terminator (byte `0`).  The
source only encodes; this decoder states the claims' round-trip laws. -/
def decodeOctalAux : List Nat → Nat → Nat
  | [], acc => acc
  | b :: bs, acc => if b = 0 then acc else decodeOctalAux bs (acc * 8 + (b - 48))

/-- Decode an octal ASCII field starting from accumulator `0`. -/
def decodeOctal (bs : List Nat) : Nat := decodeOctalAux bs 0

/-- The `repr(C)` `GnuHeader` struct: 512 bytes of named fixed-width fields
(the four 24-byte `GnuSparseHeader` entries are flattened into the 96-byte
`sparse` field). -/
structure GnuHeader where
  name : List Nat
  mode : List Nat
  uid : List Nat
  gid : List Nat
  size : List Nat
  mtime : List Nat
  chksum : List Nat
  typeflag : List Nat
  linkname : List Nat
  magic : List Nat
  version : List Nat
  uname : List Nat
  gname : List Nat
  devmajor : List Nat
  devminor : List Nat
  atime : List Nat
  ctime : List Nat
  offset : List Nat
  longnames : List Nat
  unused : List Nat
  sparse : List Nat
  isextended : List Nat
  realsize : List Nat
  pad : List Nat

/-- The flat 512-byte view of a header: the `repr(C)` layout concatenates the
fields in declaration order (this is the `bytes: [u8; 512]` array the
source's `Header` wraps and the `unsafe` casts reinterpret). -/
def GnuHeader.bytes (h : GnuHeader) : List Nat :=
  h.name ++ h.mode ++ h.uid ++ h.gid ++ h.size ++ h.mtime ++ h.chksum ++
  h.typeflag ++ h.linkname ++ h.magic ++ h.version ++ h.uname ++ h.gname ++
  h.devmajor ++ h.devminor ++ h.atime ++ h.ctime ++ h.offset ++ h.longnames ++
  h.unused ++ h.sparse ++ h.isextended ++ h.realsize ++ h.pad

/-- Model of `Header::new()`: an all-zero 512-byte buffer with the format
constants set — `magic = "ustar "` (bytes `117 115 116 97 114 32`) and
`version = " \0"` (bytes `32 0`). -/
def Header.new : GnuHeader where
  name := List.replicate 100 0
  mode := List.replicate 8 0
  uid := List.replicate 8 0
  gid := List.replicate 8 0
  size := List.replicate 12 0
  mtime := List.replicate 12 0
  chksum := List.replicate 8 0
  typeflag := List.replicate 1 0
  linkname := List.replicate 100 0
  magic := [117, 115, 116, 97, 114, 32]
  version := [32, 0]
  uname := List.replicate 32 0
  gname := List.replicate 32 0
  devmajor := List.replicate 8 0
  devminor := List.replicate 8 0
  atime := List.replicate 12 0
  ctime := List.replicate 12 0
  offset := List.replicate 12 0
  longnames := List.replicate 4 0
  unused := List.replicate 1 0
  sparse := List.replicate 96 0
  isextended := List.replicate 1 0
  realsize := List.replicate 12 0
  pad := List.replicate 17 0

/-- Model of `Header::set_name`: copies the path's bytes (on Unix a path is
its raw byte sequence) into the 100-byte `name` field via `copy_into`,
propagating its (never occurring) error. -/
def Header.set_name (h : GnuHeader) (path : List Nat) : Except String GnuHeader :=
  match copy_into h.name path with
  | .error e => .error e
  | .ok nm => .ok { h with name := nm }

/-- Model of `Header::calculate_chksum`: the checksum field starts at byte
offset 148 (computed in the source from the `OldHeader` layout) and is 8
bytes long; the sum chains `bytes[0..148]`, eight ASCII space bytes (32),
and `bytes[156..]`.  The Rust sum is `u32` arithmetic, which cannot overflow
for 512 bytes, so `Nat` addition is faithful. -/
def calculate_chksum (bytes : List Nat) : Nat :=
  (bytes.take 148 ++ List.replicate 8 32 ++ bytes.drop 156).sum

/-- The header-building part of `Archiver::add_file`: start from
`Header::new()`, set the name, encode `mode`, `uid`, `gid`, `size` (0 for a
non-regular entry) and `mtime` in octal, then compute the checksum and
encode it into the `chksum` field. -/
def buildHeader (path : List Nat) (mode uid gid : Nat) (isFile : Bool)
    (len mtime : Nat) : Except String GnuHeader :=
  match Header.set_name Header.new path with
  | .error e => .error e
  | .ok h0 =>
    let h1 : GnuHeader := { h0 with mode := octal_into h0.mode mode }
    let h2 : GnuHeader := { h1 with uid := octal_into h1.uid uid }
    let h3 : GnuHeader := { h2 with gid := octal_into h2.gid gid }
    let h4 : GnuHeader :=
      { h3 with size := octal_into h3.size (if isFile then len else 0) }
    let h5 : GnuHeader := { h4 with mtime := octal_into h4.mtime mtime }
    let c := calculate_chksum h5.bytes
    Except.ok { h5 with chksum := octal_into h5.chksum c }

/-- The archive writer: owns the byte sink, modelled as the list of all bytes
written so far. -/
structure Archiver where
  out : List Nat

/-- Model of `Archiver::new` over an empty sink. -/
def Archiver.new : Archiver := ⟨[]⟩

/-- Model of `Archiver::add_file`: build and write the 512-byte header, then
for a regular file stream the content bytes, then write
`512 - len % 512` zero bytes of padding whenever that amount is `< 512`.
The entry's metadata (`mode`, `uid`, `gid`, `mtime`, regular-file flag) and
content are the external collaborators' inputs. -/
def Archiver.add_file (a : Archiver) (path : List Nat) (mode uid gid mtime : Nat)
    (isFile : Bool) (content : List Nat) : Except String Archiver :=
  match buildHeader path mode uid gid isFile content.length mtime with
  | .error e => .error e
  | .ok header =>
    let afterHeader := a.out ++ header.bytes
    let len := if isFile then content.length else 0
    let afterContent := if isFile then afterHeader ++ content else afterHeader
    let remaining := 512 - len % 512
    Except.ok ⟨if remaining < 512 then afterContent ++ List.replicate remaining 0
               else afterContent⟩

/-- Model of `impl Drop for Archiver`: on disposal the writer appends the
1024-zero-byte end-of-archive terminator (two empty blocks), ignoring write
errors. -/
def Archiver.drop (a : Archiver) : Archiver := ⟨a.out ++ List.replicate 1024 0⟩

/-- The header produced by the build sequence before the checksum is encoded:
every field written so far is explicit. -/
def builtPre (path : List Nat) (mode uid gid : Nat) (isFile : Bool)
    (len mtime : Nat) : GnuHeader :=
  { Header.new with
    name := copy_from (List.replicate 100 0) (path ++ [0])
    mode := octal_into (List.replicate 8 0) mode
    uid := octal_into (List.replicate 8 0) uid
    gid := octal_into (List.replicate 8 0) gid
    size := octal_into (List.replicate 12 0) (if isFile then len else 0)
    mtime := octal_into (List.replicate 12 0) mtime }

/-- The fully built header: `builtPre` with the checksum encoded. -/
def built (path : List Nat) (mode uid gid : Nat) (isFile : Bool)
    (len mtime : Nat) : GnuHeader :=
  { builtPre path mode uid gid isFile len mtime with
    chksum := octal_into (List.replicate 8 0)
      (calculate_chksum (builtPre path mode uid gid isFile len mtime).bytes) }

theorem buildHeader_eq (path : List Nat) (mode uid gid : Nat) (isFile : Bool)
    (len mtime : Nat) :
    buildHeader path mode uid gid isFile len mtime
      = Except.ok (built path mode uid gid isFile len mtime) := rfl

theorem copy_from_length (slot src : List Nat) :
    (copy_from slot src).length = slot.length := by
  induction slot generalizing src with
  | nil => cases src <;> rfl
  | cons a l ih =>
    cases src with
    | nil => rfl
    | cons v s => simpa [copy_from] using ih s

theorem takeStream_length (n : Nat) (xs : List Nat) (pad : Nat) :
    (takeStream n xs pad).length = n := by
  simp only [takeStream, List.length_append, List.length_take, List.length_replicate]
  omega

theorem octal_into_length (dst : List Nat) (v : Nat) :
    (octal_into dst v).length = dst.length := by
  cases dst with
  | nil => rfl
  | cons a l => simp [octal_into, takeStream_length]

theorem copy_from_of_length_le (slot src : List Nat) (h : src.length ≤ slot.length) :
    copy_from slot src = src ++ slot.drop src.length := by
  induction src generalizing slot with
  | nil => cases slot <;> simp [copy_from]
  | cons v s ih =>
    cases slot with
    | nil => simp at h
    | cons a l =>
      simp only [copy_from, List.cons_append, List.drop_succ_cons, List.cons.injEq,
        true_and]
      exact ih l (by simpa using h)

theorem copy_from_of_le_length (slot src : List Nat) (h : slot.length ≤ src.length) :
    copy_from slot src = src.take slot.length := by
  induction slot generalizing src with
  | nil => cases src <;> rfl
  | cons a l ih =>
    cases src with
    | nil => simp at h
    | cons v s =>
      simp only [copy_from, List.length_cons, List.take_succ_cons, List.cons.injEq,
        true_and]
      exact ih s (by simpa using h)

theorem mem_copy_from {b : Nat} :
    ∀ (slot src : List Nat), b ∈ copy_from slot src → b ∈ slot ∨ b ∈ src
  | [], src, h => by simp [copy_from] at h
  | a :: l, [], h => by
    simp only [copy_from] at h
    exact Or.inl h
  | a :: l, v :: s, h => by
    rcases List.mem_cons.mp (by simpa [copy_from] using h) with h | h
    · exact Or.inr (List.mem_cons.mpr (Or.inl h))
    · rcases mem_copy_from l s h with h | h
      · exact Or.inl (List.mem_cons.mpr (Or.inr h))
      · exact Or.inr (List.mem_cons.mpr (Or.inr h))

theorem octGo_mem_lt (fuel : Nat) : ∀ (n : Nat), ∀ d ∈ octGo fuel n, d < 8 := by
  induction fuel with
  | zero => intro n d hd; simp [octGo] at hd
  | succ fuel ih =>
    intro n d hd
    by_cases hn : n = 0
    · simp [octGo, hn] at hd
    · rcases List.mem_cons.mp (by simpa [octGo, hn] using hd) with h | h
      · omega
      · exact ih _ d h

theorem octalRep_mem_lt (v : Nat) : ∀ b ∈ octalRep v, 48 ≤ b ∧ b < 56 := by
  intro b hb
  by_cases hv : v = 0
  · simp [octalRep, hv] at hb
    omega
  · simp only [octalRep, hv, if_false, List.mem_reverse, List.mem_map] at hb
    obtain ⟨d, hd, rfl⟩ := hb
    have := octGo_mem_lt v v d hd
    omega

theorem octalRep_length_pos (v : Nat) : 0 < (octalRep v).length := by
  by_cases hv : v = 0
  · simp [octalRep, hv]
  · rcases Nat.exists_eq_succ_of_ne_zero hv with ⟨m, rfl⟩
    simp [octalRep, octGo]

theorem getLastD_cons_mem (a : Nat) (l : List Nat) (d : Nat) :
    (a :: l).getLastD d ∈ a :: l := by
  induction l generalizing a with
  | nil => simp [List.getLastD]
  | cons b l ih =>
    rw [List.getLastD_cons]
    exact List.mem_cons.mpr (Or.inr (ih b))

theorem mem_takeStream {b n pad : Nat} {xs : List Nat}
    (h : b ∈ takeStream n xs pad) : b ∈ xs ∨ b = pad := by
  rcases List.mem_append.mp h with h | h
  · exact Or.inl (List.take_subset _ _ h)
  · exact Or.inr (List.eq_of_mem_replicate h)

theorem mem_octal_into {b : Nat} {dst : List Nat} {v : Nat}
    (h : b ∈ octal_into dst v) : b ∈ dst ∨ b = 48 ∨ b ∈ octalRep v := by
  cases dst with
  | nil => simp [octal_into] at h
  | cons a l =>
    rcases List.mem_append.mp h with h | h
    · rcases mem_takeStream (List.mem_reverse.mp h) with h | h
      · exact Or.inr (Or.inr (List.mem_reverse.mp h))
      · exact Or.inr (Or.inl h)
    · rcases List.mem_singleton.mp h with rfl
      exact Or.inl (getLastD_cons_mem a l 0)

theorem octal_into_eq_of_fits (dst : List Nat) (v : Nat) (h1 : 0 < dst.length)
    (h2 : (octalRep v).length ≤ dst.length - 1) :
    octal_into dst v
      = List.replicate (dst.length - 1 - (octalRep v).length) 48 ++ octalRep v
        ++ [dst.getLastD 0] := by
  cases dst with
  | nil => simp at h1
  | cons a l =>
    have hk : (octalRep v).length ≤ l.length := by simpa using h2
    simp only [octal_into, takeStream]
    rw [List.take_of_length_le (by simpa using hk)]
    rw [List.reverse_append, List.reverse_replicate, List.reverse_reverse]
    simp [List.length_reverse]

theorem getLastD_replicate_zero (w : Nat) : (List.replicate w (0 : Nat)).getLastD 0 = 0 := by
  induction w with
  | zero => rfl
  | succ k ih =>
    cases k with
    | zero => rfl
    | succ m =>
      rw [List.replicate_succ, List.replicate_succ, List.getLastD_cons,
        ← List.replicate_succ]
      exact ih

theorem decodeOctalAux_replicate48 (k : Nat) (rest : List Nat) :
    decodeOctalAux (List.replicate k 48 ++ rest) 0 = decodeOctalAux rest 0 := by
  induction k with
  | zero => rfl
  | succ k ih => simpa [List.replicate_succ, decodeOctalAux] using ih

theorem decodeOctalAux_map_add48 (ds : List Nat) (rest : List Nat) (acc : Nat) :
    decodeOctalAux (ds.map (fun d => d + 48) ++ rest) acc
      = decodeOctalAux rest (ds.foldl (fun a d => a * 8 + d) acc) := by
  induction ds generalizing acc with
  | nil => rfl
  | cons d ds ih =>
    rw [List.map_cons, List.cons_append, decodeOctalAux, if_neg (by omega)]
    rw [show d + 48 - 48 = d by omega]
    exact ih (acc * 8 + d)

theorem octGo_foldr (fuel : Nat) : ∀ n : Nat, n ≤ fuel →
    (octGo fuel n).foldr (fun d a => a * 8 + d) 0 = n := by
  induction fuel with
  | zero =>
    intro n hn
    have : n = 0 := by omega
    simp [this, octGo]
  | succ fuel ih =>
    intro n hn
    by_cases hz : n = 0
    · simp [hz, octGo]
    · rw [octGo, if_neg hz, List.foldr_cons, ih (n / 8) (by omega)]
      omega

theorem decode_field (v k : Nat) :
    decodeOctal (List.replicate k 48 ++ (octalRep v ++ [0])) = v := by
  by_cases hv : v = 0
  · subst hv
    show decodeOctalAux (List.replicate k 48 ++ ([48] ++ [0])) 0 = 0
    rw [show (List.replicate k 48 ++ ([48] ++ [0]) : List Nat)
          = List.replicate (k + 1) 48 ++ [0] by
        rw [List.replicate_succ', List.append_assoc]]
    rw [decodeOctalAux_replicate48]
    rfl
  · show decodeOctalAux (List.replicate k 48 ++ (octalRep v ++ [0])) 0 = v
    rw [decodeOctalAux_replicate48]
    rw [show octalRep v = ((octGo v v).reverse).map (fun d => d + 48) by
        simp [octalRep, hv, List.map_reverse]]
    rw [decodeOctalAux_map_add48, List.foldl_reverse]
    rw [octGo_foldr v v (le_refl v)]
    rfl

theorem octGo_length_le (fuel : Nat) : ∀ n k : Nat, n < 8 ^ k →
    (octGo fuel n).length ≤ k := by
  induction fuel with
  | zero => intro n k _; simp [octGo]
  | succ fuel ih =>
    intro n k hk
    by_cases hz : n = 0
    · simp [hz, octGo]
    · have hkpos : 0 < k := by
        by_contra hc
        have : k = 0 := by omega
        subst this
        simp at hk
        omega
      rw [octGo, if_neg hz, List.length_cons]
      have hdiv : n / 8 < 8 ^ (k - 1) := by
        have h8 : (8 : Nat) ^ k = 8 ^ (k - 1) * 8 := by
          rw [← pow_succ]
          congr 1
          omega
        rw [Nat.div_lt_iff_lt_mul (by omega)]
        omega
      have := ih (n / 8) (k - 1) hdiv
      omega

theorem octalRep_length_le (n k : Nat) (h1 : 1 ≤ k) (h2 : n < 8 ^ k) :
    (octalRep n).length ≤ k := by
  by_cases hz : n = 0
  · simpa [octalRep, hz] using h1
  · simpa [octalRep, hz] using octGo_length_le n n k h2

theorem bytes_split (h : GnuHeader)
    (hn : h.name.length = 100) (hm : h.mode.length = 8) (hu : h.uid.length = 8)
    (hg : h.gid.length = 8) (hs : h.size.length = 12) (ht : h.mtime.length = 12)
    (hc : h.chksum.length = 8) :
    h.bytes.take 148 = h.name ++ h.mode ++ h.uid ++ h.gid ++ h.size ++ h.mtime ∧
    (h.bytes.drop 148).take 8 = h.chksum ∧
    h.bytes.drop 156
      = h.typeflag ++ h.linkname ++ h.magic ++ h.version ++ h.uname ++ h.gname ++
        h.devmajor ++ h.devminor ++ h.atime ++ h.ctime ++ h.offset ++ h.longnames ++
        h.unused ++ h.sparse ++ h.isextended ++ h.realsize ++ h.pad := by
  have hb : h.bytes
      = (h.name ++ h.mode ++ h.uid ++ h.gid ++ h.size ++ h.mtime) ++
        (h.chksum ++
          (h.typeflag ++ h.linkname ++ h.magic ++ h.version ++ h.uname ++ h.gname ++
           h.devmajor ++ h.devminor ++ h.atime ++ h.ctime ++ h.offset ++ h.longnames ++
           h.unused ++ h.sparse ++ h.isextended ++ h.realsize ++ h.pad)) := by
    simp [GnuHeader.bytes, List.append_assoc]
  have hA : (h.name ++ h.mode ++ h.uid ++ h.gid ++ h.size ++ h.mtime).length = 148 := by
    simp [hn, hm, hu, hg, hs, ht]
  have h148 : h.bytes.take 148
      = h.name ++ h.mode ++ h.uid ++ h.gid ++ h.size ++ h.mtime := by
    rw [hb, ← hA, List.take_left]
  have hdrop148 : h.bytes.drop 148
      = h.chksum ++
        (h.typeflag ++ h.linkname ++ h.magic ++ h.version ++ h.uname ++ h.gname ++
         h.devmajor ++ h.devminor ++ h.atime ++ h.ctime ++ h.offset ++ h.longnames ++
         h.unused ++ h.sparse ++ h.isextended ++ h.realsize ++ h.pad) := by
    rw [hb, ← hA, List.drop_left]
  refine ⟨h148, ?_, ?_⟩
  · rw [hdrop148, ← hc, List.take_left]
  · have h156 : h.bytes.drop 156 = (h.bytes.drop 148).drop 8 := by
      rw [List.drop_drop]
    rw [h156, hdrop148, ← hc, List.drop_left]

theorem builtPre_field_lengths (path : List Nat) (mode uid gid : Nat)
    (isFile : Bool) (len mtime : Nat) :
    (builtPre path mode uid gid isFile len mtime).name.length = 100 ∧
    (builtPre path mode uid gid isFile len mtime).mode.length = 8 ∧
    (builtPre path mode uid gid isFile len mtime).uid.length = 8 ∧
    (builtPre path mode uid gid isFile len mtime).gid.length = 8 ∧
    (builtPre path mode uid gid isFile len mtime).size.length = 12 ∧
    (builtPre path mode uid gid isFile len mtime).mtime.length = 12 ∧
    (builtPre path mode uid gid isFile len mtime).chksum.length = 8 := by
  refine ⟨?_, ?_, ?_, ?_, ?_, ?_, ?_⟩ <;>
    simp [builtPre, Header.new, copy_from_length, octal_into_length]

set_option maxRecDepth 4096 in
theorem builtPre_bytes_length (path : List Nat) (mode uid gid : Nat)
    (isFile : Bool) (len mtime : Nat) :
    (builtPre path mode uid gid isFile len mtime).bytes.length = 512 := by
  simp only [builtPre, Header.new, GnuHeader.bytes, List.length_append,
    copy_from_length, octal_into_length, List.length_replicate, List.length_cons,
    List.length_nil]

set_option maxRecDepth 4096 in
theorem built_bytes_length (path : List Nat) (mode uid gid : Nat)
    (isFile : Bool) (len mtime : Nat) :
    (built path mode uid gid isFile len mtime).bytes.length = 512 := by
  simp only [built, builtPre, Header.new, GnuHeader.bytes, List.length_append,
    copy_from_length, octal_into_length, List.length_replicate, List.length_cons,
    List.length_nil]

theorem builtPre_bytes_lt (path : List Nat) (mode uid gid : Nat)
    (isFile : Bool) (len mtime : Nat) (hpath : ∀ b ∈ path, b < 256) :
    ∀ b ∈ (builtPre path mode uid gid isFile len mtime).bytes, b < 256 := by
  have hrep : ∀ (n : Nat), ∀ b ∈ List.replicate n (0 : Nat), b < 256 := by
    intro n b hb
    rw [List.eq_of_mem_replicate hb]
    omega
  have hoct : ∀ (w v : Nat), ∀ b ∈ octal_into (List.replicate w 0) v, b < 256 := by
    intro w v b hb
    rcases mem_octal_into hb with hx | hx | hx
    · rw [List.eq_of_mem_replicate hx]; omega
    · omega
    · have := octalRep_mem_lt v b hx; omega
  have hname : ∀ b ∈ copy_from (List.replicate 100 0) (path ++ [0]), b < 256 := by
    intro b hb
    rcases mem_copy_from _ _ hb with hx | hx
    · rw [List.eq_of_mem_replicate hx]; omega
    · rcases List.mem_append.mp hx with hx | hx
      · exact hpath b hx
      · rw [List.mem_singleton.mp hx]; omega
  intro b hb
  simp only [builtPre, Header.new, GnuHeader.bytes, List.mem_append, or_assoc] at hb
  rcases hb with h|h|h|h|h|h|h|h|h|h|h|h|h|h|h|h|h|h|h|h|h|h|h|h <;>
    first
      | exact hname b h
      | exact hoct _ _ b h
      | exact hrep _ b h
      | (fin_cases h <;> omega)

theorem sum_le_of_lt (l : List Nat) (h : ∀ b ∈ l, b < 256) :
    l.sum ≤ 255 * l.length := by
  induction l with
  | nil => simp
  | cons a l ih =>
    have ha := h a (List.mem_cons_self a l)
    have hl := ih (fun b hb => h b (List.mem_cons_of_mem a hb))
    simp only [List.sum_cons, List.length_cons]
    omega

/-- Claim C2: for every non-negative value whose octal representation has at
most (field width − 1) digits, encoding it with `octal_into` into a field
whose bytes were previously zero and then decoding the field as octal ASCII,
stopping at the terminator byte, recovers the original value exactly. -/
theorem octal_roundtrip (v w : Nat) (h : (octalRep v).length ≤ w - 1) :
    decodeOctal (octal_into (List.replicate w 0) v) = v := by
  have hw : 0 < w := by
    have := octalRep_length_pos v
    omega
  rw [octal_into_eq_of_fits (List.replicate w 0) v (by simpa using hw)
    (by simpa using h)]
  rw [getLastD_replicate_zero]
  simp only [List.length_replicate]
  rw [List.append_assoc]
  exact decode_field v _

/-- Witness for C2 at the concrete value 493 (octal 755) in an 8-byte field. -/
theorem octal_roundtrip_witness :
    (octalRep 493).length ≤ 8 - 1 ∧
    decodeOctal (octal_into (List.replicate 8 0) 493) = 493 :=
  ⟨by decide, octal_roundtrip 493 8 (by decide)⟩

/-- Claim C4: for every name of byte length strictly below the 100-byte name
field width, `set_name` on a freshly constructed header leaves the name
field equal to the name followed by zeros up to the field width. -/
theorem set_name_short_pads (path : List Nat) (hlen : path.length < 100) :
    Header.set_name Header.new path
      = Except.ok
          { Header.new with name := path ++ List.replicate (100 - path.length) 0 } := by
  have hname : copy_from (List.replicate 100 0) (path ++ [0])
      = path ++ List.replicate (100 - path.length) 0 := by
    rw [copy_from_of_length_le _ _ (by simp; omega)]
    rw [List.drop_replicate]
    simp only [List.length_append, List.length_singleton]
    rw [List.append_assoc]
    rw [show (100 - path.length) = (100 - (path.length + 1)) + 1 by omega,
      List.replicate_succ]
    rfl
  rw [show Header.set_name Header.new path
      = Except.ok
          { Header.new with name := copy_from (List.replicate 100 0) (path ++ [0]) }
      from rfl, hname]

/-- Witness for C4 at the concrete 3-byte name `a.t`. -/
theorem set_name_short_pads_witness :
    ([97, 46, 116] : List Nat).length < 100 ∧
    Header.set_name Header.new [97, 46, 116]
      = Except.ok
          { Header.new with
            name := [97, 46, 116]
              ++ List.replicate (100 - ([97, 46, 116] : List Nat).length) 0 } :=
  ⟨by decide, set_name_short_pads [97, 46, 116] (by decide)⟩

/-- Claim C5: for every name of byte length at least the 100-byte field
width, `set_name` succeeds (no error) and the name field is exactly the
first 100 bytes of the name. -/
theorem set_name_truncates (path : List Nat) (hlen : 100 ≤ path.length) :
    Header.set_name Header.new path
      = Except.ok { Header.new with name := path.take 100 } := by
  have hname : copy_from (List.replicate 100 0) (path ++ [0]) = path.take 100 := by
    rw [copy_from_of_le_length _ _ (by simp; omega)]
    rw [List.length_replicate]
    rw [List.take_append_eq_append_take, show 100 - path.length = 0 by omega]
    simp
  rw [show Header.set_name Header.new path
      = Except.ok
          { Header.new with name := copy_from (List.replicate 100 0) (path ++ [0]) }
      from rfl, hname]

/-- Witness for C5 at a concrete 120-byte name. -/
theorem set_name_truncates_witness :
    100 ≤ (List.replicate 120 (97 : Nat)).length ∧
    Header.set_name Header.new (List.replicate 120 97)
      = Except.ok { Header.new with name := (List.replicate 120 (97 : Nat)).take 100 } :=
  ⟨by decide, set_name_truncates (List.replicate 120 97) (by decide)⟩

/-- Claim C6: the writer's disposal path always appends exactly 1024 zero
bytes to the sink regardless of prior writer state; in particular archiving
zero entries and finalizing produces exactly 1024 zero bytes. -/
theorem drop_appends_terminator (a : Archiver) :
    a.drop.out = a.out ++ List.replicate 1024 0 ∧
    Archiver.new.drop.out = List.replicate 1024 0 := ⟨rfl, rfl⟩

/-- Claim C7 counterexample: `octal_into` does not set the final byte of the
destination to the 0x00 terminator — it leaves it untouched.  On a
destination of eight `'1'` bytes (0x31) with value 0, the claim predicts
seven `'0'` digits followed by 0x00, but the code leaves the final byte at
0x31. -/
theorem octal_into_terminator_cex :
    octal_into (List.replicate 8 49) 0 = List.replicate 7 48 ++ [49] ∧
    ((List.replicate 7 48 ++ [49] : List Nat) == List.replicate 7 48 ++ [0]) = false :=
  ⟨by decide, by decide⟩

/-- Claim C7 (amended): when the value's octal representation fits in (field
width − 1) digits, `octal_into` writes it right-aligned, zero-padded on the
left, into all but the last byte of the field, and leaves the final byte
untouched (so it remains the 0x00 terminator exactly when the field's final
byte was already zero, as for every field of a freshly zeroed header). -/
theorem octal_into_layout (dst : List Nat) (v : Nat) (h1 : 0 < dst.length)
    (h2 : (octalRep v).length ≤ dst.length - 1) :
    octal_into dst v
      = List.replicate (dst.length - 1 - (octalRep v).length) 48 ++ octalRep v
        ++ [dst.getLastD 0] :=
  octal_into_eq_of_fits dst v h1 h2

/-- Witness for the amended C7 at value 493 and a destination of eight
nonzero bytes. -/
theorem octal_into_layout_witness :
    0 < (List.replicate 8 (49 : Nat)).length ∧
    (octalRep 493).length ≤ (List.replicate 8 (49 : Nat)).length - 1 ∧
    octal_into (List.replicate 8 49) 493
      = List.replicate ((List.replicate 8 (49 : Nat)).length - 1 - (octalRep 493).length) 48
        ++ octalRep 493 ++ [(List.replicate 8 (49 : Nat)).getLastD 0] :=
  ⟨by decide, by decide, octal_into_layout (List.replicate 8 49) 493 (by decide) (by decide)⟩

/-- Claim C8 counterexample: the claimed failing input does not exist.  Even
names that are not valid in any textual encoding — an unpaired-surrogate
UTF-8 fragment `[237, 160, 128]`, and bytes with an embedded NUL — are
accepted: on Unix a path is raw bytes, and `copy_into` returns `Ok`
unconditionally, so `set_name` never produces an `EncodingError`. -/
theorem set_name_no_failing_input_cex :
    (Header.set_name Header.new [237, 160, 128]).isOk = true ∧
    (Header.set_name Header.new [255, 0, 254]).isOk = true := ⟨rfl, rfl⟩

/-- Claim C8 (amended): `set_name` never fails — every byte-sequence name is
accepted (the underlying `copy_into` unconditionally returns `Ok`, so no
`EncodingError` path exists in the code). -/
theorem set_name_never_fails (h : GnuHeader) (path : List Nat) :
    (Header.set_name h path).isOk = true := rfl

/-- Claim C9: every built header carries the fixed format constants — the
6-byte magic field `"ustar "` (bytes `117 115 116 97 114 32`) and the 2-byte
version field `" \0"` (bytes `32 0`) — and no field-encoding operation of
the build sequence overwrites them. -/
theorem magic_version_constant (path : List Nat) (mode uid gid : Nat)
    (isFile : Bool) (len mtime : Nat) (h : GnuHeader)
    (hb : buildHeader path mode uid gid isFile len mtime = Except.ok h) :
    h.magic = [117, 115, 116, 97, 114, 32] ∧ h.version = [32, 0] := by
  rw [buildHeader_eq] at hb
  obtain rfl := Except.ok.inj hb
  exact ⟨rfl, rfl⟩

/-- Witness for C9 at a concrete build. -/
theorem magic_version_constant_witness :
    buildHeader [97] 420 0 0 true 2 0 = Except.ok (built [97] 420 0 0 true 2 0) ∧
    ((built [97] 420 0 0 true 2 0).magic = [117, 115, 116, 97, 114, 32] ∧
     (built [97] 420 0 0 true 2 0).version = [32, 0]) :=
  ⟨buildHeader_eq [97] 420 0 0 true 2 0,
   magic_version_constant [97] 420 0 0 true 2 0 _ (buildHeader_eq [97] 420 0 0 true 2 0)⟩

/-- Claim C10: for any two 512-byte header records that agree on every byte
outside the 8-byte chksum field (bytes 148..156), `calculate_chksum`
returns the same value — the computed checksum is independent of the current
contents of the chksum field. -/
theorem chksum_field_independence (b1 b2 : List Nat)
    (hl1 : b1.length = 512) (hl2 : b2.length = 512)
    (h1 : b1.take 148 = b2.take 148) (h2 : b1.drop 156 = b2.drop 156) :
    calculate_chksum b1 = calculate_chksum b2 := by
  unfold calculate_chksum
  rw [h1, h2]

set_option maxRecDepth 8192 in
/-- Witness for C10: two records differing exactly on the chksum field. -/
theorem chksum_field_independence_witness :
    (List.replicate 512 (0 : Nat)).length = 512 ∧
    (List.replicate 148 (0 : Nat) ++ List.replicate 8 55 ++ List.replicate 356 0).length
      = 512 ∧
    (List.replicate 512 (0 : Nat)).take 148
      = (List.replicate 148 (0 : Nat) ++ List.replicate 8 55
          ++ List.replicate 356 0).take 148 ∧
    (List.replicate 512 (0 : Nat)).drop 156
      = (List.replicate 148 (0 : Nat) ++ List.replicate 8 55
          ++ List.replicate 356 0).drop 156 ∧
    calculate_chksum (List.replicate 512 0)
      = calculate_chksum
          (List.replicate 148 0 ++ List.replicate 8 55 ++ List.replicate 356 0) :=
  ⟨by decide, by decide, by decide, by decide,
   chksum_field_independence _ _ (by decide) (by decide) (by decide) (by decide)⟩

/-- Claim C3: one `add_file` call writes to the sink exactly
`512 + L + ((512 − L mod 512) mod 512)` bytes, where `L` is the content
length for a regular file and `0` for a non-regular entry; the total is
always a multiple of 512 (and when `L mod 512 = 0` no padding is written). -/
theorem add_file_bytes_written (a : Archiver) (path : List Nat)
    (mode uid gid mtime : Nat) (isFile : Bool) (content : List Nat) (a' : Archiver)
    (h : a.add_file path mode uid gid mtime isFile content = Except.ok a') :
    a'.out.length
      = a.out.length + 512 + (if isFile then content.length else 0)
        + ((512 - (if isFile then content.length else 0) % 512) % 512) ∧
    512 ∣ 512 + (if isFile then content.length else 0)
        + ((512 - (if isFile then content.length else 0) % 512) % 512) := by
  have hrfl : a.add_file path mode uid gid mtime isFile content
      = Except.ok
          ⟨if 512 - (if isFile then content.length else 0) % 512 < 512
            then (if isFile
                then (a.out ++ (built path mode uid gid isFile content.length mtime).bytes)
                  ++ content
                else a.out ++ (built path mode uid gid isFile content.length mtime).bytes)
              ++ List.replicate (512 - (if isFile then content.length else 0) % 512) 0
            else (if isFile
                then (a.out ++ (built path mode uid gid isFile content.length mtime).bytes)
                  ++ content
                else a.out ++ (built path mode uid gid isFile content.length mtime).bytes)⟩ :=
    rfl
  rw [hrfl] at h
  obtain rfl := Except.ok.inj h
  have hblen := built_bytes_length path mode uid gid isFile content.length mtime
  cases isFile with
  | false =>
    simp only [Bool.false_eq_true, if_false]
    rw [if_neg (by omega)]
    refine ⟨?_, by omega⟩
    simp only [List.length_append, hblen]
    try omega
  | true =>
    simp only [if_true]
    by_cases hz : content.length % 512 = 0
    · rw [if_neg (by omega)]
      refine ⟨?_, by omega⟩
      simp only [List.length_append, hblen]
      try omega
    · rw [if_pos (by omega)]
      refine ⟨?_, by omega⟩
      simp only [List.length_append, hblen, List.length_replicate]
      try omega

/-- The concrete sink contents after archiving one 2-byte regular file on an
empty archive (header, content, 510 padding bytes). -/
def c3Archiver : Archiver :=
  ⟨(built [97] 420 0 0 true 2 0).bytes ++ [104, 105] ++ List.replicate 510 0⟩

/-- Witness for C3: a 2-byte regular file on an empty archive. -/
theorem add_file_bytes_written_witness :
    Archiver.new.add_file [97] 420 0 0 0 true [104, 105] = Except.ok c3Archiver ∧
    (c3Archiver.out.length
      = Archiver.new.out.length + 512 + (if true then ([104, 105] : List Nat).length else 0)
        + ((512 - (if true then ([104, 105] : List Nat).length else 0) % 512) % 512) ∧
     512 ∣ 512 + (if true then ([104, 105] : List Nat).length else 0)
        + ((512 - (if true then ([104, 105] : List Nat).length else 0) % 512) % 512)) :=
  ⟨rfl, add_file_bytes_written Archiver.new [97] 420 0 0 0 true [104, 105] c3Archiver rfl⟩

/-- Claim C1: for every header built by `add_file` (all-zero buffer,
magic/version set, name, mode, uid, gid, size, mtime encoded, then checksum
computed and encoded into the chksum field), re-blanking the 8-byte chksum
field (bytes 148..156) to ASCII spaces and summing all 512 bytes as unsigned
bytes yields exactly the value obtained by decoding the chksum field as
octal ASCII. -/
theorem chksum_roundtrip (path : List Nat) (mode uid gid : Nat) (isFile : Bool)
    (len mtime : Nat) (h : GnuHeader)
    (hpath : ∀ b ∈ path, b < 256)
    (hb : buildHeader path mode uid gid isFile len mtime = Except.ok h) :
    h.bytes.length = 512 ∧
    (h.bytes.take 148 ++ List.replicate 8 32 ++ h.bytes.drop 156).sum
      = decodeOctal ((h.bytes.drop 148).take 8) := by
  rw [buildHeader_eq] at hb
  obtain rfl := Except.ok.inj hb
  refine ⟨built_bytes_length path mode uid gid isFile len mtime, ?_⟩
  obtain ⟨hbn, hbm, hbu, hbg, hbs, hbt, hbc⟩ :=
    builtPre_field_lengths path mode uid gid isFile len mtime
  have hsplitP :=
    bytes_split (builtPre path mode uid gid isFile len mtime) hbn hbm hbu hbg hbs hbt hbc
  have hsplitB :=
    bytes_split (built path mode uid gid isFile len mtime) hbn hbm hbu hbg hbs hbt
      (by
        show (octal_into (List.replicate 8 0)
          (calculate_chksum (builtPre path mode uid gid isFile len mtime).bytes)).length = 8
        rw [octal_into_length, List.length_replicate])
  obtain ⟨hTP, hCP, hDP⟩ := hsplitP
  obtain ⟨hTB, hCB, hDB⟩ := hsplitB
  -- the chksum value computed over the pre-checksum header
  have hsum :
      ((built path mode uid gid isFile len mtime).bytes.take 148
        ++ List.replicate 8 32
        ++ (built path mode uid gid isFile len mtime).bytes.drop 156).sum
      = calculate_chksum (builtPre path mode uid gid isFile len mtime).bytes := by
    have hT :
        (built path mode uid gid isFile len mtime).bytes.take 148
          = (builtPre path mode uid gid isFile len mtime).bytes.take 148 := by
      rw [hTB, hTP]
      rfl
    have hD :
        (built path mode uid gid isFile len mtime).bytes.drop 156
          = (builtPre path mode uid gid isFile len mtime).bytes.drop 156 := by
      rw [hDB, hDP]
      rfl
    rw [hT, hD]
    rfl
  -- bound: the checksum fits in 7 octal digits
  have hPlt := builtPre_bytes_lt path mode uid gid isFile len mtime hpath
  have hPlen := builtPre_bytes_length path mode uid gid isFile len mtime
  have hall : ∀ b ∈ (builtPre path mode uid gid isFile len mtime).bytes.take 148
      ++ List.replicate 8 32
      ++ (builtPre path mode uid gid isFile len mtime).bytes.drop 156, b < 256 := by
    intro b hbm2
    rcases List.mem_append.mp hbm2 with hx | hx
    · rcases List.mem_append.mp hx with hy | hy
      · exact hPlt b (List.take_subset _ _ hy)
      · rw [List.eq_of_mem_replicate hy]; omega
    · exact hPlt b (List.drop_subset _ _ hx)
  have hlen512 : ((builtPre path mode uid gid isFile len mtime).bytes.take 148
      ++ List.replicate 8 32
      ++ (builtPre path mode uid gid isFile len mtime).bytes.drop 156).length = 512 := by
    simp only [List.length_append, List.length_take, List.length_drop,
      List.length_replicate, hPlen]
    omega
  have hSle := sum_le_of_lt _ hall
  rw [hlen512] at hSle
  have hSlt : calculate_chksum (builtPre path mode uid gid isFile len mtime).bytes
      < 8 ^ 7 := by
    have hpow : (8 : Nat) ^ 7 = 2097152 := by norm_num
    have : calculate_chksum (builtPre path mode uid gid isFile len mtime).bytes
        ≤ 255 * 512 := hSle
    omega
  have hlen7 :
      (octalRep (calculate_chksum (builtPre path mode uid gid isFile len mtime).bytes)).length
        ≤ 7 := octalRep_length_le _ 7 (by omega) hSlt
  -- decode the encoded chksum field
  have hdec : decodeOctal (((built path mode uid gid isFile len mtime).bytes.drop 148).take 8)
      = calculate_chksum (builtPre path mode uid gid isFile len mtime).bytes := by
    rw [hCB]
    show decodeOctal (octal_into (List.replicate 8 0)
      (calculate_chksum (builtPre path mode uid gid isFile len mtime).bytes))
      = _
    rw [octal_into_eq_of_fits _ _ (by simp) (by simpa using hlen7)]
    rw [getLastD_replicate_zero]
    simp only [List.length_replicate]
    rw [List.append_assoc]
    exact decode_field _ _
  rw [hsum, hdec]

/-- The concrete 5-byte name `a.txt` used in the C1 witness. -/
def c1Path : List Nat := [97, 46, 116, 120, 116]

set_option maxRecDepth 8192 in
/-- Witness for C1: the header of a 2-byte regular file named `a.txt` with
mode 0644, uid 0, gid 0, mtime 0. -/
theorem chksum_roundtrip_witness :
    (∀ b ∈ c1Path, b < 256) ∧
    ((built c1Path 420 0 0 true 2 0).bytes.length = 512 ∧
     ((built c1Path 420 0 0 true 2 0).bytes.take 148 ++ List.replicate 8 32
       ++ (built c1Path 420 0 0 true 2 0).bytes.drop 156).sum
       = decodeOctal (((built c1Path 420 0 0 true 2 0).bytes.drop 148).take 8)) :=
  ⟨by decide,
   chksum_roundtrip c1Path 420 0 0 true 2 0 (built c1Path 420 0 0 true 2 0)
     (by decide) (buildHeader_eq c1Path 420 0 0 true 2 0)⟩

end Srstar
